import Mathlib

/-!
Verification development for the engraving core of the scorefall-ink
music-notation editor.  The definitions below are a shallow embedding of
the Rust sources:

* `src/scof/src/fraction.rs`   — exact unsigned rational arithmetic,
* `src/scof/src/note/pitch.rs` — pitch names, octaves, visual distance,
* `src/scof/src/note/mod.rs`   — notes, diatonic stepping,
* `src/scof/src/lib.rs`        — document model, cursor, splice edits,
* `src/staverator/src/notator.rs`          — duration decomposition,
* `src/staverator/src/beaming.rs`          — beam grouping and stems,
* `src/staverator/src/rhythmic_spacing.rs` — multi-channel merge queue.

Machine integers (`u16`, `u32`, `i32`) are modelled as `Nat`/`Int`; the
Rust sources run with arithmetic that panics on overflow in debug builds,
and none of the theorems below exercises inputs where an overflow occurs.
Rust `panic!`/`unreachable!` sites are modelled either by an explicit
result constructor (where a claim is about the panic) or are unreachable
under the stated hypotheses (noted at each definition).
-/

namespace ScoreFall

/-! ## Pitch model (`src/scof/src/note/pitch.rs`) -/

/-- PitchName from pitch.rs, with its discriminants C=0 .. B=6. -/
inductive PitchName where
  | C | D | E | F | G | A | B
  deriving DecidableEq, Repr

/-- Discriminant of a pitch name, as in `self.0.name as i32`. -/
def PitchName.idx : PitchName → Int
  | .C => 0
  | .D => 1
  | .E => 2
  | .F => 3
  | .G => 4
  | .A => 5
  | .B => 6

/-- PitchAccidental from pitch.rs. -/
inductive PitchAccidental where
  | DoubleFlat | FlatQuarterFlat | Flat | QuarterFlat | Natural
  | QuarterSharp | Sharp | SharpQuarterSharp | DoubleSharp
  deriving DecidableEq, Repr

/-- PitchClass from pitch.rs. -/
structure PitchClass where
  name : PitchName
  accidental : Option PitchAccidental
  deriving DecidableEq, Repr

/-- PitchOctave from pitch.rs, octaves -1 (written `Octave_`) through 9. -/
inductive PitchOctave where
  | Octave_ | Octave0 | Octave1 | Octave2 | Octave3 | Octave4
  | Octave5 | Octave6 | Octave7 | Octave8 | Octave9
  deriving DecidableEq, Repr

/-- Signed octave number, as in `self.1 as i32`. -/
def PitchOctave.val : PitchOctave → Int
  | .Octave_ => -1
  | .Octave0 => 0
  | .Octave1 => 1
  | .Octave2 => 2
  | .Octave3 => 3
  | .Octave4 => 4
  | .Octave5 => 5
  | .Octave6 => 6
  | .Octave7 => 7
  | .Octave8 => 8
  | .Octave9 => 9

/-- PitchOctave::lower from pitch.rs: one octave down, None below octave -1. -/
def PitchOctave.lower : PitchOctave → Option PitchOctave
  | .Octave_ => none
  | .Octave0 => some .Octave_
  | .Octave1 => some .Octave0
  | .Octave2 => some .Octave1
  | .Octave3 => some .Octave2
  | .Octave4 => some .Octave3
  | .Octave5 => some .Octave4
  | .Octave6 => some .Octave5
  | .Octave7 => some .Octave6
  | .Octave8 => some .Octave7
  | .Octave9 => some .Octave8

/-- PitchOctave::raise from pitch.rs: one octave up, None above octave 9. -/
def PitchOctave.raise : PitchOctave → Option PitchOctave
  | .Octave_ => some .Octave0
  | .Octave0 => some .Octave1
  | .Octave1 => some .Octave2
  | .Octave2 => some .Octave3
  | .Octave3 => some .Octave4
  | .Octave4 => some .Octave5
  | .Octave5 => some .Octave6
  | .Octave6 => some .Octave7
  | .Octave7 => some .Octave8
  | .Octave8 => some .Octave9
  | .Octave9 => none

/-- Pitch = (PitchClass, PitchOctave) from pitch.rs. -/
structure Pitch where
  cls : PitchClass
  octave : PitchOctave
  deriving DecidableEq, Repr

/-- Pitch::visual_distance from pitch.rs: signed diatonic steps above
middle C, `steps + octaves * 7` with `octaves = octave - 4`. -/
def Pitch.visualDistance (p : Pitch) : Int :=
  p.cls.name.idx + (p.octave.val - 4) * 7

/-! ## Fraction (`src/scof/src/fraction.rs`) -/

/-- Fraction from fraction.rs: unsigned numerator and denominator.
The source stores `u16`; values are modelled as `Nat`. -/
structure Fraction where
  num : Nat
  den : Nat
  deriving DecidableEq, Repr

/-- Loop body of `gcd_i` from fraction.rs.  The source loop alternates
`a %= b` / `b %= a` until one is zero; `max a b` strictly decreases each
iteration, so fuel `a + b` (passed by `gcdI`) is never exhausted. -/
def gcdLoop : Nat → Nat → Nat → Nat
  | 0, _, b => b
  | fuel + 1, a, b =>
    if a % b = 0 then b
    else if b % (a % b) = 0 then a % b
    else gcdLoop fuel (a % b) (b % (a % b))

/-- gcd_i from fraction.rs: iterative Euclid, zero-aware
(`gcd(0,x) = x`, `gcd(x,0) = x`). -/
def gcdI (a b : Nat) : Nat :=
  if a = 0 then b
  else if b = 0 then a
  else gcdLoop (a + b) a b

/-- Fraction::simplify from fraction.rs: divide both parts by `gcd_i`. -/
def Fraction.simplify (f : Fraction) : Fraction :=
  let a := gcdI f.num f.den
  ⟨f.num / a, f.den / a⟩

/-- Denominator alignment tuple `(self_mul, other_mul, den)` shared by
the source's `Add` and `Sub` impls: divisibility shortcuts (one
denominator divides the other) before falling back to cross
multiplication. -/
def alignMuls (a b : Fraction) : Nat × Nat × Nat :=
  if a.den % b.den = 0 then (1, a.den / b.den, a.den)
  else if b.den % a.den = 0 then (b.den / a.den, 1, b.den)
  else (b.den, a.den, a.den * b.den)

/-- `impl Add for Fraction` from fraction.rs: zero shortcut, denominator
alignment by divisibility (falling back to cross multiplication), then
division of numerator and denominator by their gcd. -/
def Fraction.add (a b : Fraction) : Fraction :=
  if a.num = 0 then b
  else
    let muls := alignMuls a b
    let num := a.num * muls.1 + b.num * muls.2.1
    let g := gcdI num muls.2.2
    ⟨num / g, muls.2.2 / g⟩

/-- `impl Sub for Fraction` from fraction.rs: same denominator alignment
as `add` (no zero shortcut), then division by the gcd.  The source
subtracts in `u16` (panicking on underflow); here `Nat` subtraction
truncates, and every use below has a value-ordering hypothesis that rules
underflow out. -/
def Fraction.sub (a b : Fraction) : Fraction :=
  let muls := alignMuls a b
  let num := a.num * muls.1 - b.num * muls.2.1
  let g := gcdI num muls.2.2
  ⟨num / g, muls.2.2 / g⟩

/-- `impl PartialOrd for Fraction` from fraction.rs specialised to `>`:
`a > b` iff the cross product `a.num * b.den` exceeds `b.num * a.den`. -/
def Fraction.gtB (a b : Fraction) : Bool :=
  b.num * a.den < a.num * b.den

/-- `impl PartialEq for Fraction` from fraction.rs: simplify both sides
and compare the parts. -/
def Fraction.eqB (a b : Fraction) : Bool :=
  a.simplify.num = b.simplify.num ∧ a.simplify.den = b.simplify.den

/-- Rational value of a fraction (interpretation used by the theorems;
`den = 0` never occurs under the dens-positive hypotheses). -/
def Fraction.toRat (f : Fraction) : ℚ :=
  (f.num : ℚ) / (f.den : ℚ)

/-! ## Notes and markings (`src/scof/src/note/mod.rs`, `src/scof/src/lib.rs`) -/

/-- Articulation from note/articulation.rs. -/
inductive Articulation where
  | Staccatissimo | Staccato | Tenuto | Marcato | Accent
  | Mute | Open | Harmonic | Pedal
  | Slur | Glissando | BendUpInto | BendDownInto | BendUpOut | BendDownOut
  | Turn | TurnInverted | Trill | Tremelo | StrumDown | StrumUp
  | Fermata
  deriving DecidableEq, Repr

/-- Note from note/mod.rs: ordered pitch list (empty = rest), duration,
articulations. -/
structure Note where
  pitch : List Pitch
  duration : Fraction
  articulation : List Articulation
  deriving DecidableEq, Repr

/-- Dynamic from lib.rs. -/
inductive Dynamic where
  | PPPPPP | PPPPP | PPPP | PPP | PP | P | MP | MF | F | FF | FFF | FFFF
  | FFFFF | FFFFFF | N | SF | SFZ | FP | SFP
  deriving DecidableEq, Repr

/-- Marking from lib.rs: the closed variant set of timeline events. -/
inductive Marking where
  | dynamic (d : Dynamic)
  | graceInto (n : Note)
  | graceOutOf (n : Note)
  | note (n : Note)
  | breath
  | caesuraShort
  | caesuraLong
  | cresc
  | dim
  | pizz
  | arco
  | mute
  | open
  | repeat
  deriving DecidableEq, Repr

/-- Whether a marking is the `Note` variant. -/
def Marking.isNote : Marking → Bool
  | .note _ => true
  | _ => false

/-- Channel from lib.rs: the ordered marking list for one bar of one
voice.  (The `lyric` field is carried by the source but never read by any
operation the claims concern; it is omitted.) -/
structure Channel where
  notes : List Marking
  deriving DecidableEq, Repr

/-- Measure from lib.rs.  (`sig` and `repeat` are carried by the source
but never read by the splice/cursor operations; they are omitted.) -/
structure Measure where
  chan : List Channel
  deriving DecidableEq, Repr

/-- Movement from lib.rs (the `sig` list is irrelevant to the claims). -/
structure Movement where
  bar : List Measure
  deriving DecidableEq, Repr

/-- Scof document root from lib.rs, reduced to the movement list (title,
metadata, style, synth, soundfont and the signature cache are never read
by the operations under verification). -/
structure Scof where
  movement : List Movement
  deriving DecidableEq, Repr

/-- Cursor from lib.rs: purely positional 4-tuple of indices. -/
structure Cursor where
  movement : Nat
  measure : Nat
  chan : Nat
  marking : Nat
  deriving DecidableEq, Repr

/-- The `notes` list of the channel a cursor addresses
(`Scof::chan_notes_mut` as a lookup; each level's `get` failure
propagates like the source's `?`). -/
def Scof.chanNotes (s : Scof) (c : Cursor) : Option (List Marking) :=
  match s.movement.get? c.movement with
  | none => none
  | some mv =>
    match mv.bar.get? c.measure with
    | none => none
    | some me =>
      match me.chan.get? c.chan with
      | none => none
      | some ch => some ch.notes

/-- Scof::marking from lib.rs: 4-level indexed lookup; `none` is the
normal end-of-measure / end-of-document signal. -/
def Scof.marking (s : Scof) (c : Cursor) : Option Marking :=
  (s.chanNotes c).bind (·.get? c.marking)

/-- Scof::note from lib.rs: the marking at the cursor if it is a Note. -/
def Scof.note (s : Scof) (c : Cursor) : Option Note :=
  match s.marking c with
  | some (.note n) => some n
  | _ => none

/-- Scof::marking_len from lib.rs: the probe
`curs.marking = 0; while marking(curs).is_some() { curs.marking += 1 }`
counts exactly the length of the channel's marking list (and 0 when the
channel itself does not resolve). -/
def Scof.markingLen (s : Scof) (c : Cursor) : Nat :=
  ((s.chanNotes c).getD []).length

/-- Cursor::left from lib.rs. -/
def Cursor.left (c : Cursor) (s : Scof) : Cursor :=
  if c.marking > 0 then { c with marking := c.marking - 1 }
  else if c.measure ≠ 0 then
    let c2 := { c with measure := c.measure - 1 }
    let len := s.markingLen c2
    { c2 with marking := if len > 0 then len - 1 else 0 }
  else c

/-- Cursor::right_checked from lib.rs: advance within the measure,
returning `true` (cursor unchanged) if the measure ended. -/
def Cursor.rightChecked (c : Cursor) (s : Scof) : Cursor × Bool :=
  let len := s.markingLen c
  if c.marking + 1 < len then ({ c with marking := c.marking + 1 }, false)
  else (c, true)

/-- Cursor::right from lib.rs: advance, moving to the next measure
(marking 0) if the measure ended. -/
def Cursor.right (c : Cursor) (s : Scof) : Cursor :=
  match c.rightChecked s with
  | (c2, false) => c2
  | (c2, true) => { c2 with measure := c2.measure + 1, marking := 0 }

/-- Cursor::right_unchecked from lib.rs. -/
def Cursor.rightUnchecked (c : Cursor) : Cursor :=
  { c with marking := c.marking + 1 }

/-! ## Document splicing (`src/scof/src/lib.rs`) -/

/-- Apply `f` to the element at index `n` of a list (identity when the
index is out of range).  Helper for the `*_mut` accessors. -/
def listModify (f : α → α) : Nat → List α → List α
  | _, [] => []
  | 0, a :: t => f a :: t
  | n + 1, a :: t => a :: listModify f n t

/-- `Vec::insert` at an index: every later element shifts right.  The
source panics when the index exceeds the length; here the list is then
returned unchanged (the theorems' hypotheses keep indices in range). -/
def listInsert (a : α) : Nat → List α → List α
  | 0, l => a :: l
  | _ + 1, [] => []
  | n + 1, x :: t => x :: listInsert a n t

/-- Replace the marking list of the channel at the cursor
(`Scof::chan_notes_mut` as a functional update; identity when the
cursor's channel does not resolve, where the source would have panicked
on `unwrap`). -/
def Scof.withChanNotes (s : Scof) (c : Cursor)
    (f : List Marking → List Marking) : Scof :=
  { movement := listModify (fun mv =>
      { bar := listModify (fun me =>
          { chan := listModify (fun ch => { notes := f ch.notes })
              c.chan me.chan }) c.measure mv.bar }) c.movement s.movement }

/-- Walk of `Scof::set_part_measure` from lib.rs over the markings after
the splice start.  Given the new note and the remaining quota it returns
the rebuilt suffix together with the unconsumed remainder:
- a non-Note marking is visited but never pushed (it is dropped);
- a Note with duration < quota is dropped and its duration subtracted;
- a Note with duration = quota is replaced by the new note (stop);
- a Note with duration > quota is shrunk by quota and the new note is
  inserted before it (stop);
- if the markings run out, the new note is appended with its duration
  reduced by the remaining quota, which is returned as the remainder. -/
def spmLoop (note : Note) (quota : Fraction) :
    List Marking → List Marking × Option Fraction
  | [] =>
    ([Marking.note { note with duration := note.duration.sub quota }],
      some quota)
  | m :: rest =>
    match m with
    | .note p =>
      if quota.gtB p.duration then
        spmLoop note (quota.sub p.duration) rest
      else if quota.eqB p.duration then
        (Marking.note note :: rest, none)
      else
        (Marking.note note ::
          Marking.note { p with duration := p.duration.sub quota } :: rest,
          none)
    | _ => spmLoop note quota rest

/-- Channel-level core of `Scof::set_part_measure` from lib.rs: keep the
first `b` markings (`b` = the cursor's marking index), splice the walk's
result over the rest. -/
def setPartMeasure (notes : List Marking) (b : Nat) (note : Note) :
    List Marking × Option Fraction :=
  let res := spmLoop note note.duration (notes.drop b)
  (notes.take b ++ res.1, res.2)

/-- Scof::set_part_measure from lib.rs.  When the cursor's channel does
not resolve the source panics on `unwrap`; the document is then returned
unchanged. -/
def Scof.setPartMeasure (s : Scof) (c : Cursor) (note : Note) :
    Scof × Option Fraction :=
  match s.chanNotes c with
  | none => (s, none)
  | some l =>
    let res := ScoreFall.setPartMeasure l c.marking note
    (s.withChanNotes c (fun _ => res.1), res.2)

/-- Scof::insert_after from lib.rs: insert a marking at index
`cursor.marking + 1` of the cursor's channel. -/
def Scof.insertAfter (s : Scof) (c : Cursor) (m : Marking) : Scof :=
  s.withChanNotes c (listInsert m (c.marking + 1))

/-- Scof::insert_at from lib.rs: insert a marking at `cursor.marking`. -/
def Scof.insertAt (s : Scof) (c : Cursor) (m : Marking) : Scof :=
  s.withChanNotes c (listInsert m c.marking)

/-- Overwrite of the marking at the cursor (`*marking_mut(cursor) = m`). -/
def Scof.setMarkingAt (s : Scof) (c : Cursor) (m : Marking) : Scof :=
  s.withChanNotes c (listModify (fun _ => m) c.marking)

/-- Scof::new_measure from lib.rs: append to movement 0 a measure with
one default (empty = whole rest) channel per channel of its last
measure. -/
def Scof.newMeasure (s : Scof) : Scof :=
  match s.movement.get? 0 with
  | none => s
  | some mv =>
    match mv.bar.getLast? with
    | none => s
    | some lastBar =>
      let fresh : Measure :=
        { chan := lastBar.chan.map (fun _ => { notes := [] }) }
      { movement := listModify (fun m => { bar := m.bar ++ [fresh] })
          0 s.movement }

/-- The whole-rest marking `"1/1R"` pushed by `set_duration` /
`set_empty_measure`. -/
def wholeRest : Marking :=
  Marking.note { pitch := [], duration := ⟨1, 1⟩, articulation := [] }

/-- Fill-forward loop of `Scof::set_duration` from lib.rs (the
`new_duration ≥ old` branch): splice, and while a remainder comes back
move to the next measure (creating it, seeding an explicit whole rest if
empty) and continue with the remainder as the note's duration.  Each
round consumes at least the freshly pushed whole rest, so the remainder's
value drops by at least one whole measure per round and `fuel =
note.duration.num + 1` (supplied by `setDuration`) is never exhausted. -/
def fillLoop : Nat → Scof → Cursor → Note → Scof
  | 0, s, _, _ => s
  | fuel + 1, s, c, note =>
    match s.setPartMeasure c note with
    | (s2, none) => s2
    | (s2, some rem) =>
      let c2 := { c with measure := c.measure + 1, marking := 0 }
      let s3 := s2.newMeasure
      let s4 :=
        if (s3.chanNotes c2).getD [] = [] then
          s3.withChanNotes c2 (fun l => l ++ [wholeRest])
        else s3
      fillLoop fuel s4 c2 { note with duration := rem }

/-- Scof::set_duration from lib.rs.  Shortening (`old > dur`) inserts a
rest carrying the shortfall right after the cursor and overwrites the
note; otherwise the fill-forward splice loop runs.  A cursor that does
not resolve to a Note panics in the source (`unwrap`); the document is
then returned unchanged. -/
def Scof.setDuration (s : Scof) (c : Cursor) (dur : Fraction) : Scof :=
  match s.note c with
  | none => s
  | some n =>
    let old := n.duration
    let note := { n with duration := dur }
    if old.gtB dur then
      let rests := old.sub dur
      let s2 := s.insertAfter c
        (Marking.note { pitch := [], duration := rests, articulation := [] })
      s2.setMarkingAt c (Marking.note note)
    else
      fillLoop (note.duration.num + 1) s c note

/-! ## Notator (`src/staverator/src/notator.rs`) -/

/-- Inner `while` loop of `Notator::next`: while `dur ≠ 0`, emit `check`
if `dur ≥ check`, else halve `check`.  Returns the emitted chunk with the
updated `(dur, check)` state, or `none` when `dur = 0` (so the next
marking must be fetched).  The loop halves `check` at most 7 times from
128 before reaching 1, where `dur ≥ 1` forces an emit, so the fuel
(`8` at every call site) is never exhausted. -/
def notatorChunk : Nat → Nat → Nat → Option (Nat × Nat × Nat)
  | 0, _, _ => none
  | _ + 1, 0, _ => none
  | fuel + 1, d, c =>
    if d ≥ c then some (c, d - c, c) else notatorChunk fuel d (c / 2)

/-- Full chunk sequence `Notator` emits for a single marking whose
duration converts to `d` 128ths: the greedy loop of `Notator::next`
starting from `check = 128`, iterated to exhaustion.  Each iteration
either emits (consuming at least 1 of `d`) or halves `check` (at most 8
times), so fuel `d + 8` is never exhausted. -/
def notateChunksAux : Nat → Nat → Nat → List Nat
  | 0, _, _ => []
  | _ + 1, 0, _ => []
  | fuel + 1, d, c =>
    if d ≥ c then c :: notateChunksAux fuel (d - c) c
    else notateChunksAux fuel d (c / 2)

/-- Chunk durations emitted for one marking of integer duration `d`. -/
def notateChunks (d : Nat) : List Nat :=
  notateChunksAux (d + 8) d 128

/-- State of a `Notator` between `next` calls: remaining duration of the
current note, current `check`, current pitch set, whether the current
note is under the user's cursor, and the marking index `curs` (the
companion marking list below is the channel suffix from `curs` on). -/
structure NotatorState where
  dur : Nat
  check : Nat
  pitch : List Pitch
  ic : Bool
  curs : Nat
  deriving DecidableEq, Repr

/-- Result of one `Notator::next` call: an emitted item with the
post-call state, normal end of the sequence (marking lookup failed), or
the `unreachable!()` panic hit on a non-Note marking. -/
inductive NotatorNextResult where
  | item (pitch : List Pitch) (chunk : Nat) (ic : Bool) (st : NotatorState)
  | done
  | panic
  deriving DecidableEq, Repr

/-- Notator::next from notator.rs: emit from the current note if duration
remains; otherwise fetch the next marking — a Note reloads
`check = 128`, `dur = num * 128 / den`, the pitch set and the
cursor flag, any other marking variant hits `unreachable!()`. -/
def notatorNext (cursor : Nat) :
    NotatorState → List Marking → NotatorNextResult
  | st, ms =>
    match notatorChunk 8 st.dur st.check with
    | some (chunk, d2, c2) =>
      .item st.pitch chunk st.ic { st with dur := d2, check := c2 }
    | none =>
      match ms with
      | [] => .done
      | m :: rest =>
        match m with
        | .note n =>
          notatorNext cursor
            { dur := n.duration.num * 128 / n.duration.den
              check := 128
              pitch := n.pitch
              ic := st.curs = cursor
              curs := st.curs + 1 } rest
        | _ => .panic

/-! ## Beams (`src/staverator/src/beaming.rs`) -/

/-- One entry of `Beams.notes` (the pending beamed group):
`(u16, f32, (Vec<Pitch>, Steps), bool)`.  The `f32` width is opaque to
every beam computation and is modelled as `ℚ`. -/
structure BeamNote where
  dur : Nat
  width : ℚ
  chord : List Pitch
  ypos : Int
  oneBeam : Bool
  deriving DecidableEq, Repr

/-- Visual distance used by the stem vote: the first pitch of the
member's chord (`beams.notes[i].2.0[0]`).  The source indexes and would
panic on an empty chord; an empty chord here contributes distance 0. -/
def BeamNote.vd (n : BeamNote) : Int :=
  (n.chord.headD ⟨⟨.C, none⟩, .Octave4⟩).visualDistance

/-- Vote sum of `Beam::new`: +1 per member with positive visual
distance, -1 per member with negative visual distance. -/
def stemVote : List BeamNote → Int
  | [] => 0
  | n :: t =>
    (if 0 < n.vd then 1 else if n.vd < 0 then -1 else 0) + stemVote t

/-- A beamed group: member notes (first chord pitch each) and a single
stem direction (`false` = down). -/
structure Beam where
  notes : List (Nat × ℚ × (Pitch × Int) × Bool)
  stemsUp : Bool
  deriving DecidableEq, Repr

/-- Beam::new from beaming.rs: stems point up iff the vote sum is
negative; `uses_three_beams` iff the minimum duration in the group is
below 8; members keep their first chord pitch. -/
def beamNew (notes : List BeamNote) (minDur : Nat) : Beam :=
  let stemsUp := stemVote notes < 0
  let usesThreeBeams := minDur < 8
  { notes := notes.map (fun n =>
      (n.dur, n.width,
        (n.chord.headD ⟨⟨.C, none⟩, .Octave4⟩, n.ypos),
        n.oneBeam && usesThreeBeams))
    stemsUp := stemsUp }

/-! ## BarEngraver merge queue (`src/staverator/src/rhythmic_spacing.rs`) -/

/-- Reinsertion loop of `BarEngraver::engrave` (the `'p: loop`): scan the
deque index from the back; push to the back at the first entry whose key
exceeds `time`, push to the front if the scan reaches index 0. -/
def pqInsertAux (pq : List (Nat × Nat)) (time ch : Nat) :
    Nat → List (Nat × Nat)
  | 0 => (time, ch) :: pq
  | i + 1 =>
    if time < ((pq.getD i (0, 0)).1 : Nat) then pq ++ [(time, ch)]
    else pqInsertAux pq time ch i

/-- Reinsertion into the engraver's deque, starting the scan at the
current length (`let mut index = self.pq.len()`). -/
def pqInsert (pq : List (Nat × Nat)) (time ch : Nat) : List (Nat × Nat) :=
  pqInsertAux pq time ch pq.length

/-- Queue-relevant state of the `BarEngraver::engrave` loop: the deque of
`(128ths remaining, channel index)` pairs, each channel's pending chunk
durations (what its `Notator` will emit), the running minimum `all`, and
the finished channels collected into `rests`.  Width accumulation and
glyph output do not feed back into the queue and are omitted. -/
structure EngraveState where
  pq : List (Nat × Nat)
  chans : List (List Nat)
  all : Nat
  rests : List Nat
  deriving DecidableEq, Repr

/-- Initial engraver state: every channel queued with 128 remaining, in
channel order (`pq.push_back((128, i))`). -/
def engraveInit (chans : List (List Nat)) : EngraveState :=
  { pq := (List.range chans.length).map (fun i => (128, i))
    chans := chans
    all := 128
    rests := [] }

/-- One iteration of the `while let Some(...) = self.pq.pop_front()`
loop: pop the front; an exhausted channel goes to `rests`; otherwise its
next chunk is consumed, `all` follows the popped key downward, and the
channel is reinserted with `time - dur` when nonzero.  Returns the popped
pair with the new state, or `none` when the deque is empty. -/
def engraveStep (st : EngraveState) : Option ((Nat × Nat) × EngraveState) :=
  match st.pq with
  | [] => none
  | (time, i) :: rest =>
    match st.chans.getD i [] with
    | [] =>
      some ((time, i), { st with pq := rest, rests := st.rests ++ [i] })
    | d :: ds =>
      let all2 := if time < st.all then time else st.all
      let t2 := time - d
      let pq2 := if t2 ≠ 0 then pqInsert rest t2 i else rest
      some ((time, i),
        { pq := pq2, chans := st.chans.set i ds, all := all2,
          rests := st.rests })

/-- Iterate `engraveStep` a given number of times (the state after `n`
pops). -/
def engraveSteps : Nat → EngraveState → EngraveState
  | 0, st => st
  | n + 1, st =>
    match engraveStep st with
    | none => st
    | some (_, st2) => engraveSteps n st2

/-! ## Diatonic stepping (`src/scof/src/note/mod.rs`) -/

/-- Closure of Note::step_up from note/mod.rs, acting on one pitch:
cyclic name map (octave raise flagged only on B), keep the accidental,
and return the pitch unchanged when `raise` yields `None`. -/
def pitchStepUp (p : Pitch) : Pitch :=
  let nameAndOffset : PitchName × Bool :=
    match p.cls.name with
    | .A => (.B, false)
    | .B => (.C, true)
    | .C => (.D, false)
    | .D => (.E, false)
    | .E => (.F, false)
    | .F => (.G, false)
    | .G => (.A, false)
  let po := if nameAndOffset.2 then p.octave.raise else some p.octave
  match po with
  | some o => ⟨⟨nameAndOffset.1, p.cls.accidental⟩, o⟩
  | none => p

/-- Closure of Note::step_down from note/mod.rs, acting on one pitch:
cyclic name map (octave lower flagged only on C), keep the accidental,
and return the pitch unchanged when `lower` yields `None`. -/
def pitchStepDown (p : Pitch) : Pitch :=
  let nameAndOffset : PitchName × Bool :=
    match p.cls.name with
    | .A => (.G, false)
    | .B => (.A, false)
    | .C => (.B, true)
    | .D => (.C, false)
    | .E => (.D, false)
    | .F => (.E, false)
    | .G => (.F, false)
  let po := if nameAndOffset.2 then p.octave.lower else some p.octave
  match po with
  | some o => ⟨⟨nameAndOffset.1, p.cls.accidental⟩, o⟩
  | none => p

/-! ## Derived notions used by the theorems -/

/-- Sum of the rational values of all Note durations in a marking list
(the quantity conserved by the splice algorithms). -/
def sumNoteDur : List Marking → ℚ
  | [] => 0
  | .note n :: t => n.duration.toRat + sumNoteDur t
  | _ :: t => sumNoteDur t

/-- A marking's duration (when it has one) has a positive denominator —
the `den ≠ 0` invariant `Fraction::new` asserts. -/
def Marking.denPos : Marking → Prop
  | .note n => 0 < n.duration.den
  | .graceInto n => 0 < n.duration.den
  | .graceOutOf n => 0 < n.duration.den
  | _ => True

/-- Modelled from the spec (claim side): the diatonic cycle upward,
`A→B→C→D→E→F→G→A`. -/
def diatonicUp : PitchName → PitchName
  | .A => .B
  | .B => .C
  | .C => .D
  | .D => .E
  | .E => .F
  | .F => .G
  | .G => .A

/-- Modelled from the spec (claim side): the diatonic cycle downward,
the reverse of `diatonicUp`. -/
def diatonicDown : PitchName → PitchName
  | .A => .G
  | .B => .A
  | .C => .B
  | .D => .C
  | .E => .D
  | .F => .E
  | .G => .F

/-- Modelled from the spec (claim side): the raised octave, total; the
`Octave9` case is never consulted (the claims exclude it). -/
def octaveUp : PitchOctave → PitchOctave
  | .Octave_ => .Octave0
  | .Octave0 => .Octave1
  | .Octave1 => .Octave2
  | .Octave2 => .Octave3
  | .Octave3 => .Octave4
  | .Octave4 => .Octave5
  | .Octave5 => .Octave6
  | .Octave6 => .Octave7
  | .Octave7 => .Octave8
  | .Octave8 => .Octave9
  | .Octave9 => .Octave9

/-- Modelled from the spec (claim side): the lowered octave, total; the
`Octave_` case is never consulted (the claims exclude it). -/
def octaveDown : PitchOctave → PitchOctave
  | .Octave_ => .Octave_
  | .Octave0 => .Octave_
  | .Octave1 => .Octave0
  | .Octave2 => .Octave1
  | .Octave3 => .Octave2
  | .Octave4 => .Octave3
  | .Octave5 => .Octave4
  | .Octave6 => .Octave5
  | .Octave7 => .Octave6
  | .Octave8 => .Octave7
  | .Octave9 => .Octave8

/-- A whole-measure rest note, used as concrete input by witnesses. -/
def wholeRestNote : Note := { pitch := [], duration := ⟨1, 1⟩, articulation := [] }

/-- A half-measure rest note, used as concrete input by witnesses. -/
def halfRestNote : Note := { pitch := [], duration := ⟨1, 2⟩, articulation := [] }

/-- A zero-duration rest note, used as concrete input by counterexamples. -/
def zeroRestNote : Note := { pitch := [], duration := ⟨0, 1⟩, articulation := [] }

/-- The rest marking `set_duration` inserts after the cursor when
shortening: empty pitch list, duration `old - new`, no articulation. -/
def shortfallRest (old new : Fraction) : Marking :=
  Marking.note { pitch := [], duration := old.sub new, articulation := [] }

/-- One-movement, one-measure, one-channel document holding a single
whole rest, used as concrete input by witnesses. -/
def demoScof : Scof :=
  { movement := [{ bar := [{ chan := [{ notes := [Marking.note wholeRestNote] }] }] }] }

/-- The origin cursor. -/
def demoCursor : Cursor := ⟨0, 0, 0, 0⟩

/-- Two eighth-note beam members, D4 and E4 — both strictly above middle
C, i.e. positive visual distance.  Concrete input for the stem-direction
counterexample. -/
def demoBeamMembers : List BeamNote :=
  [{ dur := 16, width := 0, chord := [⟨⟨.D, none⟩, .Octave4⟩], ypos := 0,
     oneBeam := false },
   { dur := 16, width := 0, chord := [⟨⟨.E, none⟩, .Octave4⟩], ypos := 0,
     oneBeam := false }]

/-! ## Lemmas: gcd and fraction values -/

theorem gcdLoop_eq_gcd (fuel : Nat) :
    ∀ a b : Nat, 0 < a → 0 < b → max a b ≤ fuel →
      gcdLoop fuel a b = Nat.gcd a b := by
  induction fuel with
  | zero =>
    intro a b ha _ hle
    omega
  | succ fuel ih =>
    intro a b ha hb hle
    show (if a % b = 0 then b
      else if b % (a % b) = 0 then a % b
      else gcdLoop fuel (a % b) (b % (a % b))) = Nat.gcd a b
    have hab : Nat.gcd a b = Nat.gcd (a % b) b := by
      rw [Nat.gcd_comm a b, Nat.gcd_rec b a]
    by_cases h1 : a % b = 0
    · rw [if_pos h1, hab, h1, Nat.gcd_comm, Nat.gcd_zero_right]
    · rw [if_neg h1]
      have hab2 : Nat.gcd a b = Nat.gcd (b % (a % b)) (a % b) := by
        rw [hab, Nat.gcd_rec]
      by_cases h2 : b % (a % b) = 0
      · rw [if_pos h2, hab2, h2, Nat.gcd_comm, Nat.gcd_zero_right]
      · rw [if_neg h2]
        have ha2 : a % b < b := Nat.mod_lt _ hb
        have hb2 : b % (a % b) < a % b := Nat.mod_lt _ (Nat.pos_of_ne_zero h1)
        rw [ih (a % b) (b % (a % b)) (Nat.pos_of_ne_zero h1)
          (Nat.pos_of_ne_zero h2) (by omega), hab2, Nat.gcd_comm]

theorem gcdI_eq_gcd (a b : Nat) : gcdI a b = Nat.gcd a b := by
  unfold gcdI
  by_cases ha : a = 0
  · simp [ha]
  · by_cases hb : b = 0
    · simp [ha, hb]
    · rw [if_neg ha, if_neg hb,
        gcdLoop_eq_gcd (a + b) a b (Nat.pos_of_ne_zero ha)
          (Nat.pos_of_ne_zero hb) (by omega)]

theorem toRat_of_den_eq (n d m e : Nat) (hd : 0 < d) (he : 0 < e)
    (h : n * e = m * d) :
    Fraction.toRat ⟨n, d⟩ = Fraction.toRat ⟨m, e⟩ := by
  have hd2 : (d : ℚ) ≠ 0 := by exact_mod_cast hd.ne'
  have he2 : (e : ℚ) ≠ 0 := by exact_mod_cast he.ne'
  show (n : ℚ) / d = (m : ℚ) / e
  rw [div_eq_div_iff hd2 he2]
  exact_mod_cast h

/-- Dividing numerator and denominator by their gcd preserves the value
and keeps the denominator positive. -/
theorem reduce_toRat (n d : Nat) (hd : 0 < d) :
    Fraction.toRat ⟨n / Nat.gcd n d, d / Nat.gcd n d⟩ = Fraction.toRat ⟨n, d⟩
      ∧ 0 < d / Nat.gcd n d := by
  have hg : 0 < Nat.gcd n d := Nat.gcd_pos_of_pos_right n hd
  have hdn : Nat.gcd n d ∣ n := Nat.gcd_dvd_left n d
  have hdd : Nat.gcd n d ∣ d := Nat.gcd_dvd_right n d
  have hgq : (Nat.gcd n d : ℚ) ≠ 0 := by exact_mod_cast hg.ne'
  have hdq : (d : ℚ) ≠ 0 := by exact_mod_cast hd.ne'
  constructor
  · show (↑(n / Nat.gcd n d) : ℚ) / ↑(d / Nat.gcd n d) = (n : ℚ) / d
    rw [Nat.cast_div hdn hgq, Nat.cast_div hdd hgq]
    rw [div_div_div_cancel_right₀]
    exact hgq
  · exact Nat.div_pos (Nat.le_of_dvd hd hdd) hg

/-- Correctness of the denominator alignment: each side's denominator
times its multiplier is the common denominator, which is positive. -/
theorem alignMuls_spec (a b : Fraction) (ha : 0 < a.den) (hb : 0 < b.den) :
    a.den * (alignMuls a b).1 = (alignMuls a b).2.2
      ∧ b.den * (alignMuls a b).2.1 = (alignMuls a b).2.2
      ∧ 0 < (alignMuls a b).2.2 := by
  unfold alignMuls
  by_cases h1 : a.den % b.den = 0
  · have hdvd : b.den ∣ a.den := Nat.dvd_of_mod_eq_zero h1
    simp only [h1, if_pos rfl]
    exact ⟨Nat.mul_one _, Nat.mul_div_cancel' hdvd, ha⟩
  · rw [if_neg h1]
    by_cases h2 : b.den % a.den = 0
    · have hdvd : a.den ∣ b.den := Nat.dvd_of_mod_eq_zero h2
      simp only [h2, if_pos rfl]
      exact ⟨Nat.mul_div_cancel' hdvd, Nat.mul_one _, hb⟩
    · rw [if_neg h2]
      exact ⟨rfl, Nat.mul_comm _ _, Nat.mul_pos ha hb⟩

theorem toRat_le_iff (a b : Fraction) (ha : 0 < a.den) (hb : 0 < b.den) :
    a.toRat ≤ b.toRat ↔ a.num * b.den ≤ b.num * a.den := by
  unfold Fraction.toRat
  rw [div_le_div_iff₀ (by exact_mod_cast ha) (by exact_mod_cast hb)]
  exact_mod_cast Iff.rfl

theorem toRat_lt_iff (a b : Fraction) (ha : 0 < a.den) (hb : 0 < b.den) :
    a.toRat < b.toRat ↔ a.num * b.den < b.num * a.den := by
  unfold Fraction.toRat
  rw [div_lt_div_iff₀ (by exact_mod_cast ha) (by exact_mod_cast hb)]
  exact_mod_cast Iff.rfl

/-- The source's `>` comparison agrees with the rational values. -/
theorem gtB_iff (a b : Fraction) (ha : 0 < a.den) (hb : 0 < b.den) :
    a.gtB b = true ↔ b.toRat < a.toRat := by
  rw [toRat_lt_iff b a hb ha]
  unfold Fraction.gtB
  simp

theorem toRat_nonneg (f : Fraction) : 0 ≤ f.toRat := by
  unfold Fraction.toRat
  positivity

/-- Simplifying preserves the rational value (positive denominator). -/
theorem simplify_toRat (f : Fraction) (hd : 0 < f.den) :
    f.simplify.toRat = f.toRat ∧ 0 < f.simplify.den := by
  unfold Fraction.simplify
  rw [gcdI_eq_gcd]
  exact ⟨(reduce_toRat f.num f.den hd).1, (reduce_toRat f.num f.den hd).2⟩

/-- Alignment is value-faithful: the aligned numerators over the common
denominator have the original values, and value order transfers to the
aligned numerators. -/
theorem aligned_le (a b : Fraction) (ha : 0 < a.den) (hb : 0 < b.den)
    (h : b.toRat ≤ a.toRat) :
    b.num * (alignMuls a b).2.1 ≤ a.num * (alignMuls a b).1 := by
  obtain ⟨hsa, hsb, hpos⟩ := alignMuls_spec a b ha hb
  have hcross : b.num * a.den ≤ a.num * b.den := (toRat_le_iff b a hb ha).mp h
  have key : b.num * (alignMuls a b).2.1 * (b.den * a.den)
      ≤ a.num * (alignMuls a b).1 * (b.den * a.den) := by
    calc b.num * (alignMuls a b).2.1 * (b.den * a.den)
        = (b.num * a.den) * (b.den * (alignMuls a b).2.1) := by ring
      _ = (b.num * a.den) * (alignMuls a b).2.2 := by rw [hsb]
      _ ≤ (a.num * b.den) * (alignMuls a b).2.2 :=
          Nat.mul_le_mul_right _ hcross
      _ = a.num * (alignMuls a b).1 * (b.den * a.den) := by
          rw [← hsa]; ring
  exact Nat.le_of_mul_le_mul_right key (Nat.mul_pos hb ha)

/-- An aligned numerator over the common denominator has the original
value. -/
theorem aligned_toRat (num den mul : Nat) (hd : 0 < den) (hD : 0 < den * mul)
    (f : Fraction) (hnum : f.num = num) (hden : f.den = den) :
    Fraction.toRat ⟨num * mul, den * mul⟩ = f.toRat := by
  subst hnum hden
  exact toRat_of_den_eq _ _ _ _ hD hd (by ring)

/-- Value and denominator-positivity of the source's subtraction, under
the no-underflow hypothesis `b ≤ a` (as values). -/
theorem sub_toRat (a b : Fraction) (ha : 0 < a.den) (hb : 0 < b.den)
    (h : b.toRat ≤ a.toRat) :
    (a.sub b).toRat = a.toRat - b.toRat ∧ 0 < (a.sub b).den := by
  obtain ⟨hsa, hsb, hpos⟩ := alignMuls_spec a b ha hb
  have hle := aligned_le a b ha hb h
  have hval : Fraction.toRat
      ⟨a.num * (alignMuls a b).1 - b.num * (alignMuls a b).2.1,
        (alignMuls a b).2.2⟩ = a.toRat - b.toRat := by
    have hD : ((alignMuls a b).2.2 : ℚ) ≠ 0 := by exact_mod_cast hpos.ne'
    show ((↑(a.num * (alignMuls a b).1 - b.num * (alignMuls a b).2.1) : ℚ)
      / ((alignMuls a b).2.2 : ℚ)) = a.toRat - b.toRat
    rw [Nat.cast_sub hle]
    rw [sub_div]
    have h1 : ((a.num * (alignMuls a b).1 : Nat) : ℚ)
        / ((alignMuls a b).2.2 : ℚ) = a.toRat := by
      have := aligned_toRat a.num a.den (alignMuls a b).1 ha
        (by rw [hsa]; exact hpos) a rfl rfl
      rw [← this]
      show ((a.num * (alignMuls a b).1 : Nat) : ℚ)
        / ((alignMuls a b).2.2 : ℚ)
          = ((a.num * (alignMuls a b).1 : Nat) : ℚ)
            / ((a.den * (alignMuls a b).1 : Nat) : ℚ)
      rw [hsa]
    have h2 : ((b.num * (alignMuls a b).2.1 : Nat) : ℚ)
        / ((alignMuls a b).2.2 : ℚ) = b.toRat := by
      have := aligned_toRat b.num b.den (alignMuls a b).2.1 hb
        (by rw [hsb]; exact hpos) b rfl rfl
      rw [← this]
      show ((b.num * (alignMuls a b).2.1 : Nat) : ℚ)
        / ((alignMuls a b).2.2 : ℚ)
          = ((b.num * (alignMuls a b).2.1 : Nat) : ℚ)
            / ((b.den * (alignMuls a b).2.1 : Nat) : ℚ)
      rw [hsb]
    rw [h1, h2]
  have hred := reduce_toRat
    (a.num * (alignMuls a b).1 - b.num * (alignMuls a b).2.1)
    (alignMuls a b).2.2 hpos
  constructor
  · show Fraction.toRat ⟨_ / gcdI _ _, _ / gcdI _ _⟩ = _
    rw [gcdI_eq_gcd, hred.1, hval]
  · show 0 < _ / gcdI _ _
    rw [gcdI_eq_gcd]
    exact hred.2

/-- The source's `==` comparison (compare simplified parts) only equates
fractions of equal rational value. -/
theorem eqB_toRat (a b : Fraction) (ha : 0 < a.den) (hb : 0 < b.den)
    (h : a.eqB b = true) : a.toRat = b.toRat := by
  unfold Fraction.eqB at h
  simp only [decide_eq_true_eq] at h
  have hsa := simplify_toRat a ha
  have hsb := simplify_toRat b hb
  rw [← hsa.1, ← hsb.1]
  have : a.simplify = b.simplify := by
    cases hs : a.simplify
    cases hs2 : b.simplify
    simp_all
  rw [this]

/-! ## Lemmas: the measure-splice walk -/

theorem sumNoteDur_append (l1 l2 : List Marking) :
    sumNoteDur (l1 ++ l2) = sumNoteDur l1 + sumNoteDur l2 := by
  induction l1 with
  | nil => simp [sumNoteDur]
  | cons m t ih =>
    cases m <;> simp [sumNoteDur, ih] <;> ring

theorem Marking.isNote_iff (m : Marking) :
    m.isNote = true ↔ ∃ p, m = .note p := by
  cases m <;> simp [Marking.isNote]

theorem spmLoop_nonNote (m : Marking) (hm : m.isNote = false) (note : Note)
    (quota : Fraction) (t : List Marking) :
    spmLoop note quota (m :: t) = spmLoop note quota t := by
  cases m <;> simp_all [Marking.isNote, spmLoop]

theorem sumNoteDur_nonNote (m : Marking) (hm : m.isNote = false)
    (t : List Marking) : sumNoteDur (m :: t) = sumNoteDur t := by
  cases m <;> simp_all [Marking.isNote, sumNoteDur]

/-- In the covered case (positive quota at most the Note-duration sum of
the walked suffix) the walk stops inside the list: no remainder, and the
Note-duration sum of the rebuilt suffix is the old sum minus the quota
plus the new note's duration. -/
theorem spmLoop_covered (note : Note) :
    ∀ (ms : List Marking) (quota : Fraction), (∀ m ∈ ms, m.denPos) →
      0 < quota.den → 0 < quota.toRat → quota.toRat ≤ sumNoteDur ms →
      (spmLoop note quota ms).2 = none ∧
        sumNoteDur (spmLoop note quota ms).1
          = sumNoteDur ms - quota.toRat + note.duration.toRat := by
  intro ms
  induction ms with
  | nil =>
    intro quota _ _ hq hcov
    simp only [sumNoteDur] at hcov
    exact absurd (lt_of_lt_of_le hq hcov) (lt_irrefl 0)
  | cons m t ih =>
    intro quota hden hqden hq hcov
    have htden : ∀ x ∈ t, x.denPos := fun x hx =>
      hden x (List.mem_cons_of_mem _ hx)
    by_cases hnote : m.isNote = true
    · obtain ⟨p, rfl⟩ := (Marking.isNote_iff m).mp hnote
      have hpden : 0 < p.duration.den := hden _ (List.mem_cons_self _ _)
      by_cases hgt : quota.gtB p.duration = true
      · have hlt : p.duration.toRat < quota.toRat :=
          (gtB_iff quota p.duration hqden hpden).mp hgt
        have hsub := sub_toRat quota p.duration hqden hpden hlt.le
        have hcov2 : (quota.sub p.duration).toRat ≤ sumNoteDur t := by
          rw [hsub.1]
          simp only [sumNoteDur] at hcov
          linarith
        have hq2 : 0 < (quota.sub p.duration).toRat := by
          rw [hsub.1]; linarith
        have := ih (quota.sub p.duration) htden hsub.2 hq2 hcov2
        simp only [spmLoop, hgt, if_true]
        refine ⟨this.1, ?_⟩
        rw [this.2, hsub.1]
        simp only [sumNoteDur]
        ring
      · have hge : quota.toRat ≤ p.duration.toRat := by
          have := (gtB_iff quota p.duration hqden hpden).not.mp
            (by simp [hgt])
          exact le_of_not_lt this
        by_cases heq : quota.eqB p.duration = true
        · have hqp : quota.toRat = p.duration.toRat :=
            eqB_toRat quota p.duration hqden hpden heq
          simp only [spmLoop, hgt, if_false, heq, if_true]
          refine ⟨rfl, ?_⟩
          simp only [sumNoteDur]
          rw [hqp]
          ring
        · have hsub := sub_toRat p.duration quota hpden hqden hge
          simp only [spmLoop, hgt, if_false, heq]
          refine ⟨rfl, ?_⟩
          simp only [sumNoteDur, hsub.1]
          ring
    · have hm : m.isNote = false := by simpa using hnote
      rw [spmLoop_nonNote m hm note quota t, sumNoteDur_nonNote m hm t]
      exact ih quota htden hqden hq
        (by rwa [sumNoteDur_nonNote m hm t] at hcov)

/-- In the exhausted case (the walk returns a remainder) the remainder's
value is the quota minus the walked suffix's Note-duration sum, its
denominator stays positive, and the rebuilt suffix is exactly the new
note with its duration reduced by the remainder. -/
theorem spmLoop_exhaust (note : Note) :
    ∀ (ms : List Marking) (quota : Fraction) (tail : List Marking)
      (r : Fraction), (∀ m ∈ ms, m.denPos) → 0 < quota.den →
      spmLoop note quota ms = (tail, some r) →
      r.toRat = quota.toRat - sumNoteDur ms ∧ 0 < r.den ∧
        tail = [Marking.note { note with duration := note.duration.sub r }] := by
  intro ms
  induction ms with
  | nil =>
    intro quota tail r _ hqden heq
    simp only [spmLoop] at heq
    injection heq with h1 h2
    injection h2 with h2
    subst h2
    exact ⟨by simp [sumNoteDur], hqden, h1.symm⟩
  | cons m t ih =>
    intro quota tail r hden hqden heq
    have htden : ∀ x ∈ t, x.denPos := fun x hx =>
      hden x (List.mem_cons_of_mem _ hx)
    by_cases hnote : m.isNote = true
    · obtain ⟨p, rfl⟩ := (Marking.isNote_iff m).mp hnote
      have hpden : 0 < p.duration.den := hden _ (List.mem_cons_self _ _)
      by_cases hgt : quota.gtB p.duration = true
      · have hlt : p.duration.toRat < quota.toRat :=
          (gtB_iff quota p.duration hqden hpden).mp hgt
        have hsub := sub_toRat quota p.duration hqden hpden hlt.le
        simp only [spmLoop, hgt, if_true] at heq
        have := ih (quota.sub p.duration) tail r htden hsub.2 heq
        refine ⟨?_, this.2.1, this.2.2⟩
        rw [this.1, hsub.1]
        simp only [sumNoteDur]
        ring
      · by_cases heq2 : quota.eqB p.duration = true
        · simp [spmLoop, hgt, heq2] at heq
        · simp [spmLoop, hgt, heq2] at heq
    · have hm : m.isNote = false := by simpa using hnote
      rw [spmLoop_nonNote m hm note quota t] at heq
      have := ih quota tail r htden hqden heq
      refine ⟨?_, this.2.1, this.2.2⟩
      rw [this.1, sumNoteDur_nonNote m hm t]

theorem toRat_pos (f : Fraction) (hn : 0 < f.num) (hd : 0 < f.den) :
    0 < f.toRat := by
  unfold Fraction.toRat
  have h1 : (0 : ℚ) < f.num := by exact_mod_cast hn
  have h2 : (0 : ℚ) < f.den := by exact_mod_cast hd
  positivity

/-- Frame shape of the walk: the rebuilt suffix is one or two Note
markings followed verbatim by everything from some stopping index `k` on;
in particular every marking the walk visited before stopping — Note or
not — is gone from the result. -/
theorem spmLoop_frame (note : Note) :
    ∀ (ms : List Marking) (quota : Fraction),
      ∃ (k : Nat) (ins : List Marking), k ≤ ms.length ∧
        (spmLoop note quota ms).1 = ins ++ ms.drop k ∧
        (∀ m ∈ ins, m.isNote = true) ∧ ins.length ≤ 2 := by
  intro ms
  induction ms with
  | nil =>
    intro quota
    refine ⟨0, [Marking.note { note with duration := note.duration.sub quota }],
      le_refl _, ?_, ?_, by simp⟩
    · simp [spmLoop]
    · intro m hm
      simp only [List.mem_singleton] at hm
      subst hm
      rfl
  | cons m t ih =>
    intro quota
    by_cases hnote : m.isNote = true
    · obtain ⟨p, rfl⟩ := (Marking.isNote_iff m).mp hnote
      by_cases hgt : quota.gtB p.duration = true
      · obtain ⟨k, ins, hk, heq, hin, hlen⟩ := ih (quota.sub p.duration)
        refine ⟨k + 1, ins, by simpa using hk, ?_, hin, hlen⟩
        simp only [spmLoop, hgt, if_true, List.drop_succ_cons]
        exact heq
      · by_cases heq2 : quota.eqB p.duration = true
        · refine ⟨1, [Marking.note note], by simp, ?_, ?_, by simp⟩
          · simp [spmLoop, hgt, heq2]
          · intro m hm
            simp only [List.mem_singleton] at hm
            subst hm
            rfl
        · refine ⟨1, [Marking.note note,
            Marking.note { p with duration := p.duration.sub quota }],
            by simp, ?_, ?_, by simp⟩
          · simp [spmLoop, hgt, heq2]
          · intro m hm
            simp only [List.mem_cons, List.mem_singleton, List.not_mem_nil,
              or_false] at hm
            rcases hm with hm | hm <;> subst hm <;> rfl
    · have hm : m.isNote = false := by simpa using hnote
      obtain ⟨k, ins, hk, heq, hin, hlen⟩ := ih quota
      refine ⟨k + 1, ins, by simpa using hk, ?_, hin, hlen⟩
      rw [spmLoop_nonNote m hm note quota t, List.drop_succ_cons]
      exact heq

/-! ## Claim theorems -/

/-- C1 (corrected).  For every channel, splice position and note N with
a positive duration: when the Note durations at or after the position
cover N's duration, `set_part_measure` returns no remainder and
preserves the channel's total Note-duration sum; and whenever it does
return a remainder `r`, `r` is exactly N's duration minus the covered
sum, and the rebuilt channel is the preserved prefix plus N appended
with its duration reduced by `r`.  (The positivity hypothesis is forced
by `claim_c1_zero_counterexample`: with a zero-duration note and no Note
markings after the cursor the sum covers the duration, yet the walk
exhausts and returns `Some`.) -/
theorem claim_c1 (notes : List Marking) (b : Nat) (note : Note)
    (hb : b ≤ notes.length) (hden : ∀ m ∈ notes, m.denPos)
    (hnden : 0 < note.duration.den) :
    (0 < note.duration.toRat →
      note.duration.toRat ≤ sumNoteDur (notes.drop b) →
      (setPartMeasure notes b note).2 = none ∧
        sumNoteDur (setPartMeasure notes b note).1 = sumNoteDur notes)
    ∧ (∀ r : Fraction, (setPartMeasure notes b note).2 = some r →
        r.toRat = note.duration.toRat - sumNoteDur (notes.drop b) ∧
        (setPartMeasure notes b note).1
          = notes.take b ++
            [Marking.note { note with duration := note.duration.sub r }]) := by
  have hdrop : ∀ m ∈ notes.drop b, m.denPos := fun m hm =>
    hden m (List.mem_of_mem_drop hm)
  constructor
  · intro hpos hcov
    have h := spmLoop_covered note (notes.drop b) note.duration hdrop hnden
      hpos hcov
    refine ⟨h.1, ?_⟩
    show sumNoteDur (notes.take b ++ (spmLoop note note.duration
      (notes.drop b)).1) = sumNoteDur notes
    rw [sumNoteDur_append, h.2]
    conv_rhs => rw [← List.take_append_drop b notes, sumNoteDur_append]
    ring
  · intro r hr
    have hsp : spmLoop note note.duration (notes.drop b)
        = ((spmLoop note note.duration (notes.drop b)).1, some r) := by
      rw [← hr]
      rfl
    obtain ⟨h1, _, h3⟩ := spmLoop_exhaust note (notes.drop b) note.duration
      _ r hdrop hnden hsp
    refine ⟨h1, ?_⟩
    show notes.take b ++ (spmLoop note note.duration (notes.drop b)).1 = _
    rw [h3]

/-- C1 witness: a half note spliced at position 0 of a channel holding a
single whole note consumes the covered case of `claim_c1`. -/
theorem claim_c1_witness :
    (setPartMeasure [Marking.note wholeRestNote] 0 halfRestNote).2 = none
    ∧ sumNoteDur (setPartMeasure [Marking.note wholeRestNote] 0
        halfRestNote).1
      = sumNoteDur [Marking.note wholeRestNote] :=
  (claim_c1 _ 0 _ (by decide) (by simp [Marking.denPos, wholeRestNote])
      (by decide)).1
    (toRat_pos _ (by decide) (by decide))
    (by
      simp only [List.drop, sumNoteDur, add_zero]
      exact (toRat_le_iff _ _ (by decide) (by decide)).mpr (by decide))

/-- C1 counterexample: for the zero-duration note in an empty channel
the Note durations at and after the cursor (sum 0) cover the note's
duration (0), yet `set_part_measure` returns `Some 0/1`, not `None` —
the claim's covered case fails without a positivity hypothesis. -/
theorem claim_c1_zero_counterexample :
    Fraction.toRat ⟨0, 1⟩ ≤ sumNoteDur (List.drop 0 ([] : List Marking))
    ∧ (setPartMeasure [] 0 zeroRestNote).2 = some ⟨0, 1⟩ := by
  constructor
  · simp [Fraction.toRat, sumNoteDur]
  · decide

/-- C10 (confirmed).  `set_part_measure` keeps the markings before the
splice start verbatim, replaces everything the walk visited (up to its
stopping index `k`, counted within the suffix) by at most two Note
markings, and keeps everything after the stopping position verbatim; in
particular every non-Note marking between the splice start and the
stopping position is silently removed. -/
theorem claim_c10 (notes : List Marking) (b : Nat) (note : Note)
    (hb : b ≤ notes.length) :
    ∃ (k : Nat) (ins : List Marking), k ≤ (notes.drop b).length ∧
      (setPartMeasure notes b note).1
        = notes.take b ++ ins ++ (notes.drop b).drop k ∧
      (∀ m ∈ ins, m.isNote = true) ∧ ins.length ≤ 2 := by
  obtain ⟨k, ins, hk, heq, hin, hlen⟩ :=
    spmLoop_frame note (notes.drop b) note.duration
  exact ⟨k, ins, hk, by simp [setPartMeasure, heq], hin, hlen⟩

/-- C10 witness: splicing a half note at position 0 over a channel that
starts with a Breath marking drops the Breath. -/
theorem claim_c10_witness :
    ∃ (k : Nat) (ins : List Marking),
      k ≤ (List.drop 0 [Marking.breath, Marking.note wholeRestNote]).length ∧
      (setPartMeasure [Marking.breath, Marking.note wholeRestNote] 0
        halfRestNote).1
        = List.take 0 [Marking.breath, Marking.note wholeRestNote] ++ ins ++
          (List.drop 0 [Marking.breath, Marking.note wholeRestNote]).drop k ∧
      (∀ m ∈ ins, m.isNote = true) ∧ ins.length ≤ 2 :=
  claim_c10 _ 0 _ (by decide)

/-! ## Lemmas: indexed list surgery and channel updates -/

theorem listModify_get_self (f : α → α) :
    ∀ (n : Nat) (l : List α), (listModify f n l).get? n = (l.get? n).map f := by
  intro n l
  induction l generalizing n with
  | nil => cases n <;> simp [listModify]
  | cons a t ih =>
    cases n with
    | zero => simp [listModify]
    | succ n =>
      simp only [listModify, List.get?_cons_succ]
      exact ih n

theorem list_decomp : ∀ (l : List α) (n : Nat) (x : α), l.get? n = some x →
    l = l.take n ++ x :: l.drop (n + 1) := by
  intro l
  induction l with
  | nil => intro n x h; simp at h
  | cons a t ih =>
    intro n x h
    cases n with
    | zero => simp at h; simp [h]
    | succ n =>
      simp only [List.get?_cons_succ] at h
      simp only [List.take_succ_cons, List.drop_succ_cons, List.cons_append,
        List.cons.injEq, true_and]
      exact ih n x h

/-- Inserting right after index `m` and then overwriting index `m`
yields: prefix, the overwriting element, the inserted element, rest. -/
theorem insert_then_set (y a : α) :
    ∀ (l : List α) (m : Nat) (x : α), l.get? m = some x →
      listModify (fun _ => y) m (listInsert a (m + 1) l)
        = l.take m ++ y :: a :: l.drop (m + 1) := by
  intro l
  induction l with
  | nil => intro m x h; simp at h
  | cons z t ih =>
    intro m x h
    cases m with
    | zero => simp [listInsert, listModify]
    | succ m =>
      simp only [List.get?_cons_succ] at h
      simp only [listInsert, listModify, List.take_succ_cons,
        List.drop_succ_cons, List.cons_append, List.cons.injEq, true_and]
      exact ih m x h

/-- Replacing a channel's marking list through the cursor is visible to
the channel lookup. -/
theorem chanNotes_withChanNotes (s : Scof) (c : Cursor)
    (l : List Marking) (f : List Marking → List Marking)
    (h : s.chanNotes c = some l) :
    (s.withChanNotes c f).chanNotes c = some (f l) := by
  unfold Scof.chanNotes at h ⊢
  unfold Scof.withChanNotes
  cases hmv : s.movement.get? c.movement with
  | none =>
    simp only [hmv] at h
    exact Option.noConfusion h
  | some mv =>
    simp only [hmv] at h
    cases hme : mv.bar.get? c.measure with
    | none =>
      simp only [hme] at h
      exact Option.noConfusion h
    | some me =>
      simp only [hme] at h
      cases hch : me.chan.get? c.chan with
      | none =>
        simp only [hch] at h
        exact Option.noConfusion h
      | some ch =>
        simp only [hch, Option.some.injEq] at h
        simp only [listModify_get_self, hmv, hme, hch, Option.map_some,
          Option.map_some', Option.some.injEq]
        rw [h]

/-! ## Claim C6 -/

/-- C6 (confirmed).  Shortening a Note at the cursor from duration `old`
to `new < old`: the cursor's channel becomes prefix, the note with
duration `new`, a rest (empty pitch list) carrying exactly `old - new`,
then the untouched remainder; the marking at the cursor carries `new`,
the marking right after the cursor is that rest, and the channel's total
Note-duration sum is unchanged. -/
theorem claim_c6 (s : Scof) (c : Cursor) (l : List Marking) (n : Note)
    (dur : Fraction) (hl : s.chanNotes c = some l)
    (hm : l.get? c.marking = some (Marking.note n))
    (hnden : 0 < n.duration.den) (hdden : 0 < dur.den)
    (hlt : dur.toRat < n.duration.toRat) :
    (s.setDuration c dur).chanNotes c
      = some (l.take c.marking ++ Marking.note { n with duration := dur }
          :: shortfallRest n.duration dur :: l.drop (c.marking + 1))
    ∧ (s.setDuration c dur).marking c
        = some (Marking.note { n with duration := dur })
    ∧ (s.setDuration c dur).marking { c with marking := c.marking + 1 }
        = some (shortfallRest n.duration dur)
    ∧ (n.duration.sub dur).toRat = n.duration.toRat - dur.toRat
    ∧ sumNoteDur (l.take c.marking ++ Marking.note { n with duration := dur }
          :: shortfallRest n.duration dur :: l.drop (c.marking + 1))
        = sumNoteDur l := by
  have hlen : c.marking < l.length := by
    rcases List.get?_eq_some.mp hm with ⟨h, _⟩
    exact h
  have hmark : s.marking c = some (Marking.note n) := by
    unfold Scof.marking
    rw [hl]
    exact hm
  have hnote : s.note c = some n := by
    unfold Scof.note
    rw [hmark]
  have hgt : n.duration.gtB dur = true :=
    (gtB_iff n.duration dur hnden hdden).mpr hlt
  have hsub := sub_toRat n.duration dur hnden hdden hlt.le
  have hsd : s.setDuration c dur
      = (s.insertAfter c (shortfallRest n.duration dur)).setMarkingAt c
          (Marking.note { n with duration := dur }) := by
    simp [Scof.setDuration, hnote, hgt, Scof.insertAfter, shortfallRest]
  have h1 : (s.insertAfter c (shortfallRest n.duration dur)).chanNotes c
      = some (listInsert (shortfallRest n.duration dur) (c.marking + 1) l) :=
    chanNotes_withChanNotes s c l _ hl
  have h2 : ((s.insertAfter c (shortfallRest n.duration dur)).setMarkingAt c
      (Marking.note { n with duration := dur })).chanNotes c
      = some (listModify (fun _ => Marking.note { n with duration := dur })
          c.marking
          (listInsert (shortfallRest n.duration dur) (c.marking + 1) l)) :=
    chanNotes_withChanNotes _ c _ _ h1
  have hfin : (s.setDuration c dur).chanNotes c
      = some (l.take c.marking ++ Marking.note { n with duration := dur }
          :: shortfallRest n.duration dur :: l.drop (c.marking + 1)) := by
    rw [hsd, h2, insert_then_set _ _ l c.marking _ hm]
  have htklen : (l.take c.marking).length = c.marking := by
    simp [List.length_take, Nat.min_eq_left hlen.le]
  refine ⟨hfin, ?_, ?_, hsub.1, ?_⟩
  · show ((s.setDuration c dur).chanNotes c).bind (·.get? c.marking) = _
    rw [hfin]
    simp only [Option.some_bind]
    rw [List.get?_append_right (by omega), htklen]
    simp
  · show ((s.setDuration c dur).chanNotes { c with marking := c.marking + 1 }
      ).bind (·.get? (c.marking + 1)) = _
    have : (s.setDuration c dur).chanNotes { c with marking := c.marking + 1 }
        = (s.setDuration c dur).chanNotes c := rfl
    rw [this, hfin]
    simp only [Option.some_bind]
    rw [List.get?_append_right (by omega), htklen]
    simp
  · conv_rhs => rw [list_decomp l c.marking _ hm]
    rw [sumNoteDur_append, sumNoteDur_append]
    simp only [sumNoteDur, shortfallRest]
    rw [hsub.1]
    ring

/-- C6 witness: shortening the whole rest of the one-channel demo
document to a half note. -/
theorem claim_c6_witness :
    (demoScof.setDuration demoCursor ⟨1, 2⟩).chanNotes demoCursor
      = some ([Marking.note wholeRestNote].take 0
          ++ Marking.note { wholeRestNote with duration := ⟨1, 2⟩ }
          :: shortfallRest wholeRestNote.duration ⟨1, 2⟩
          :: [Marking.note wholeRestNote].drop 1)
    ∧ (demoScof.setDuration demoCursor ⟨1, 2⟩).marking demoCursor
        = some (Marking.note { wholeRestNote with duration := ⟨1, 2⟩ })
    ∧ (demoScof.setDuration demoCursor ⟨1, 2⟩).marking
        { demoCursor with marking := 1 }
        = some (shortfallRest wholeRestNote.duration ⟨1, 2⟩)
    ∧ (wholeRestNote.duration.sub ⟨1, 2⟩).toRat
        = wholeRestNote.duration.toRat - Fraction.toRat ⟨1, 2⟩
    ∧ sumNoteDur ([Marking.note wholeRestNote].take 0
          ++ Marking.note { wholeRestNote with duration := ⟨1, 2⟩ }
          :: shortfallRest wholeRestNote.duration ⟨1, 2⟩
          :: [Marking.note wholeRestNote].drop 1)
        = sumNoteDur [Marking.note wholeRestNote] :=
  claim_c6 demoScof demoCursor [Marking.note wholeRestNote] wholeRestNote
    ⟨1, 2⟩ (by decide) (by decide) (by decide) (by decide)
    ((toRat_lt_iff _ _ (by decide) (by decide)).mpr (by decide))

/-! ## Claim C7 -/

/-- Channel lookup ignores the cursor's marking index. -/
theorem chanNotes_set_marking (s : Scof) (c : Cursor) (k : Nat) :
    s.chanNotes { c with marking := k } = s.chanNotes c := rfl

/-- C7 (confirmed).  From any cursor that resolves to an existing
marking, `right` then `left` restores the cursor exactly: either `right`
stays inside the measure (and `left` undoes the increment), or `right`
crosses to the next measure at marking 0 (and `left` comes back to the
last marking of the original measure, which is where the cursor was). -/
theorem claim_c7 (s : Scof) (c : Cursor) (mk : Marking)
    (h : s.marking c = some mk) : (c.right s).left s = c := by
  obtain ⟨l, hl, hm⟩ : ∃ l, s.chanNotes c = some l
      ∧ l.get? c.marking = some mk := by
    unfold Scof.marking at h
    cases hc : s.chanNotes c with
    | none => rw [hc] at h; exact Option.noConfusion h
    | some l => rw [hc] at h; exact ⟨l, rfl, h⟩
  obtain ⟨cmv, cme, cch, cmk⟩ := c
  have hlen : cmk < l.length := (List.get?_eq_some.mp hm).1
  have hml : ∀ k : Nat, s.markingLen ⟨cmv, cme, cch, k⟩ = l.length := by
    intro k
    unfold Scof.markingLen
    have heq : s.chanNotes ⟨cmv, cme, cch, k⟩
        = s.chanNotes ⟨cmv, cme, cch, cmk⟩ := rfl
    rw [heq, hl]
    rfl
  unfold Cursor.right Cursor.rightChecked
  rw [hml cmk]
  by_cases hcase : cmk + 1 < l.length
  · rw [if_pos hcase]
    show Cursor.left ⟨cmv, cme, cch, cmk + 1⟩ s = ⟨cmv, cme, cch, cmk⟩
    unfold Cursor.left
    simp
  · rw [if_neg hcase]
    show Cursor.left ⟨cmv, cme + 1, cch, 0⟩ s = ⟨cmv, cme, cch, cmk⟩
    unfold Cursor.left
    simp only [gt_iff_lt, Nat.lt_irrefl, if_false, Nat.succ_ne_zero,
      ite_false, Nat.add_sub_cancel, ne_eq, not_false_eq_true, ite_true]
    rw [hml 0]
    have hpos : l.length > 0 := by omega
    simp only [hpos, if_true, ite_true, Cursor.mk.injEq, true_and]
    omega

/-- C7 witness: the round trip at the demo document's origin cursor. -/
theorem claim_c7_witness :
    (demoCursor.right demoScof).left demoScof = demoCursor :=
  claim_c7 demoScof demoCursor (Marking.note wholeRestNote) (by decide)

/-! ## Claim C8 -/

/-- C8 (confirmed).  `step_up`/`step_down` map the pitch name through
the diatonic cycle keeping the accidental; the octave changes only at
the B↔C boundary (raised on B going up, lowered on C going down); and at
the range ends (B octave 9 going up, C octave -1 going down) the pitch
comes back unchanged — a silent no-op. -/
theorem claim_c8 (p : Pitch) :
    pitchStepUp p
      = (if p.cls.name = .B ∧ p.octave = .Octave9 then p
        else ⟨⟨diatonicUp p.cls.name, p.cls.accidental⟩,
          if p.cls.name = .B then octaveUp p.octave else p.octave⟩)
    ∧ pitchStepDown p
      = (if p.cls.name = .C ∧ p.octave = .Octave_ then p
        else ⟨⟨diatonicDown p.cls.name, p.cls.accidental⟩,
          if p.cls.name = .C then octaveDown p.octave else p.octave⟩) := by
  obtain ⟨⟨nm, acc⟩, oct⟩ := p
  cases nm <;> cases oct <;>
    simp [pitchStepUp, pitchStepDown, diatonicUp, diatonicDown,
      octaveUp, octaveDown, PitchOctave.raise, PitchOctave.lower]

/-! ## Claim C9 -/

/-- C9 (confirmed).  When the current note is exhausted (`dur = 0`) and
the next reachable marking is not a Note variant, `Notator::next` hits
the `unreachable!()` panic: it neither skips the marking nor reports a
normal end of the sequence. -/
theorem claim_c9 (cursor : Nat) (st : NotatorState) (m : Marking)
    (rest : List Marking) (hdur : st.dur = 0) (hm : m.isNote = false) :
    notatorNext cursor st (m :: rest) = .panic := by
  have hchunk : notatorChunk 8 st.dur st.check = none := by
    rw [hdur]
    rfl
  rw [notatorNext, hchunk]
  cases m <;> simp_all [Marking.isNote]

/-- C9 witness: a Breath marking reached with the current note
exhausted panics. -/
theorem claim_c9_witness :
    notatorNext 0 ⟨0, 128, [], false, 0⟩ [Marking.breath]
      = NotatorNextResult.panic :=
  claim_c9 0 ⟨0, 128, [], false, 0⟩ Marking.breath [] (by decide) (by decide)

/-! ## Claim C2 -/

/-- C2 (corrected).  `add` and `sub` DO auto-simplify: after the
denominator-alignment step both numerator and denominator are divided by
their gcd, so the results are in lowest terms (for `add`, except through
the `self.num == 0` shortcut which returns the right operand verbatim);
`claim_c2_counterexample` shows 1/4 + 1/4 returning (1, 2), not the
claimed (2, 4). -/
theorem claim_c2 (a b : Fraction) (ha : 0 < a.den) (hb : 0 < b.den) :
    (a.num ≠ 0 → Nat.Coprime (a.add b).num (a.add b).den)
    ∧ Nat.Coprime (a.sub b).num (a.sub b).den := by
  obtain ⟨hsa, hsb, hpos⟩ := alignMuls_spec a b ha hb
  constructor
  · intro hnum
    unfold Fraction.add
    rw [if_neg hnum]
    show Nat.Coprime
      ((a.num * (alignMuls a b).1 + b.num * (alignMuls a b).2.1)
        / gcdI (a.num * (alignMuls a b).1 + b.num * (alignMuls a b).2.1)
          (alignMuls a b).2.2)
      ((alignMuls a b).2.2
        / gcdI (a.num * (alignMuls a b).1 + b.num * (alignMuls a b).2.1)
          (alignMuls a b).2.2)
    rw [gcdI_eq_gcd]
    exact Nat.coprime_div_gcd_div_gcd (Nat.gcd_pos_of_pos_right _ hpos)
  · unfold Fraction.sub
    show Nat.Coprime
      ((a.num * (alignMuls a b).1 - b.num * (alignMuls a b).2.1)
        / gcdI (a.num * (alignMuls a b).1 - b.num * (alignMuls a b).2.1)
          (alignMuls a b).2.2)
      ((alignMuls a b).2.2
        / gcdI (a.num * (alignMuls a b).1 - b.num * (alignMuls a b).2.1)
          (alignMuls a b).2.2)
    rw [gcdI_eq_gcd]
    exact Nat.coprime_div_gcd_div_gcd (Nat.gcd_pos_of_pos_right _ hpos)

/-- C2 witness: both results at 1/4 and 1/4 are in lowest terms. -/
theorem claim_c2_witness :
    Nat.Coprime (Fraction.add ⟨1, 4⟩ ⟨1, 4⟩).num
      (Fraction.add ⟨1, 4⟩ ⟨1, 4⟩).den
    ∧ Nat.Coprime (Fraction.sub ⟨1, 4⟩ ⟨1, 4⟩).num
      (Fraction.sub ⟨1, 4⟩ ⟨1, 4⟩).den :=
  ⟨(claim_c2 ⟨1, 4⟩ ⟨1, 4⟩ (by decide) (by decide)).1 (by decide),
    (claim_c2 ⟨1, 4⟩ ⟨1, 4⟩ (by decide) (by decide)).2⟩

/-- C2 counterexample: 1/4 + 1/4 evaluates to the pair (1, 2) — the gcd
reduction fires — and (1, 2) is not the pair (2, 4) the claim predicts. -/
theorem claim_c2_counterexample :
    Fraction.add ⟨1, 4⟩ ⟨1, 4⟩ = ⟨1, 2⟩
      ∧ (⟨1, 2⟩ : Fraction) ≠ ⟨2, 4⟩ := by
  decide

/-! ## Claim C3 -/

set_option maxRecDepth 40000 in
set_option maxHeartbeats 2000000 in
/-- C3 (corrected).  For every integer duration d in 1..=512 the chunks
the Notator emits for one marking are powers of two (2^0..2^7) that sum
exactly to d and are non-increasing; they are strictly decreasing
exactly on 1..=255 — from 256 up the greedy loop emits 128 repeatedly
(its `check` starts at 128), so `claim_c3_counterexample` (d = 256,
chunks [128, 128]) refutes strict decrease on the claimed range. -/
theorem claim_c3 : ∀ d : Nat, d < 513 → 1 ≤ d →
    (notateChunks d).sum = d
    ∧ (∀ x ∈ notateChunks d, ∃ k, k < 8 ∧ x = 2 ^ k)
    ∧ List.Pairwise (· ≥ ·) (notateChunks d)
    ∧ (d ≤ 255 → List.Pairwise (· > ·) (notateChunks d)) := by
  decide

/-- C3 witness: the dotted-plus chunk sequence of d = 200. -/
theorem claim_c3_witness :
    (notateChunks 200).sum = 200
    ∧ (∀ x ∈ notateChunks 200, ∃ k, k < 8 ∧ x = 2 ^ k)
    ∧ List.Pairwise (· ≥ ·) (notateChunks 200)
    ∧ (200 ≤ 255 → List.Pairwise (· > ·) (notateChunks 200)) :=
  claim_c3 200 (by decide) (by decide)

/-- C3 counterexample: d = 256 (a double whole note) emits [128, 128],
which sums to 256 but is not strictly decreasing. -/
theorem claim_c3_counterexample :
    notateChunks 256 = [128, 128]
    ∧ ¬ List.Pairwise (· > ·) (notateChunks 256)
    ∧ (notateChunks 256).sum = 256 := by
  decide

/-! ## Claim C4 -/

theorem pqInsertAux_spec (t c : Nat) :
    ∀ (n : Nat) (pq : List (Nat × Nat)), n ≤ pq.length →
      pqInsertAux pq t c n
        = if (pq.take n).any (fun p => t < p.1) then pq ++ [(t, c)]
          else (t, c) :: pq := by
  intro n
  induction n with
  | zero => intro pq _; simp [pqInsertAux]
  | succ n ih =>
    intro pq hn
    have hnl : n < pq.length := by omega
    have hd : pq.getD n (0, 0) = pq[n] := List.getD_eq_getElem pq (0, 0) hnl
    have htk : pq.take (n + 1) = pq.take n ++ [pq[n]] := by
      rw [List.take_succ, List.getElem?_eq_getElem hnl]
      rfl
    show (if t < (pq.getD n (0, 0)).1 then pq ++ [(t, c)]
      else pqInsertAux pq t c n) = _
    rw [hd, htk]
    by_cases hlt : t < pq[n].1
    · have hcond : ((List.take n pq ++ [pq[n]]).any fun p =>
          decide (t < p.1)) = true := by
        rw [List.any_append]
        simp [hlt]
      rw [if_pos hlt, if_pos hcond]
    · have hcond : ((List.take n pq ++ [pq[n]]).any fun p =>
          decide (t < p.1)) = ((List.take n pq).any fun p =>
          decide (t < p.1)) := by
        rw [List.any_append]
        simp [hlt]
      rw [if_neg hlt, ih pq (by omega), hcond]

/-- C4 (corrected).  The engraver's reinsertion does not keep the deque
sorted smallest-first and does not break ties FIFO: a reinserted channel
goes to the front exactly when no queued channel has a key above its
own (hence among equal keys the most recently inserted pops first —
LIFO), and to the back otherwise (even below larger keys); popping
always takes the deque's front, which `claim_c4_counterexample` shows
need not hold the minimal key. -/
theorem claim_c4 (pq : List (Nat × Nat)) (t c : Nat) :
    pqInsert pq t c
      = if pq.any (fun p => t < p.1) then pq ++ [(t, c)]
        else (t, c) :: pq := by
  have := pqInsertAux_spec t c pq.length pq (le_refl _)
  rwa [List.take_length] at this

/-- C4 counterexample: two channels, a half note against quarter notes.
After two pops the deque is [(96, 1), (64, 0)]: the next pop takes
channel 1 with key 96 even though channel 0 is queued with the strictly
smaller key 64 — the popped key is not minimal. -/
theorem claim_c4_counterexample :
    (engraveSteps 2 (engraveInit [[64, 64], [32, 32, 32, 32]])).pq
      = [(96, 1), (64, 0)]
    ∧ (engraveStep
        (engraveSteps 2 (engraveInit [[64, 64], [32, 32, 32, 32]]))).map
        Prod.fst = some (96, 1)
    ∧ (64, 0) ∈ (engraveSteps 2 (engraveInit [[64, 64], [32, 32, 32, 32]])).pq
    ∧ 64 < 96 := by
  decide

/-! ## Claim C5 -/

theorem stemVote_count (l : List BeamNote) :
    stemVote l = (l.countP (fun n => decide (0 < n.vd)) : Int)
      - (l.countP (fun n => decide (n.vd < 0)) : Int) := by
  induction l with
  | nil => simp [stemVote]
  | cons n t ih =>
    simp only [stemVote, List.countP_cons]
    by_cases h1 : 0 < n.vd
    · have h2 : ¬ n.vd < 0 := by omega
      simp [h1, h2, ih]
      push_cast
      ring
    · by_cases h2 : n.vd < 0
      · simp [h1, h2, ih]
        push_cast
        ring
      · simp [h1, h2, ih]

/-- C5 (corrected).  The stems of a beam point up iff strictly more
members have a negative visual distance (first chord pitch, counted
from middle C) than a positive one; a net-positive vote or a tie gives
stems down — the reverse of the claimed direction for the positive
majority, as `claim_c5_counterexample` shows concretely.  The single
`stems_up` flag is stored once per beam. -/
theorem claim_c5 (notes : List BeamNote) (minDur : Nat) :
    (beamNew notes minDur).stemsUp = true
      ↔ notes.countP (fun n => decide (0 < n.vd))
          < notes.countP (fun n => decide (n.vd < 0)) := by
  unfold beamNew
  simp only [decide_eq_true_eq]
  rw [stemVote_count]
  constructor <;> intro h <;> omega

/-- C5 counterexample: every member of the concrete beam (D4, E4) has a
strictly positive visual distance, yet the computed stem direction is
down (`stems_up = false`); the claim predicts stems up. -/
theorem claim_c5_counterexample :
    (∀ m ∈ demoBeamMembers, 0 < m.vd)
    ∧ (beamNew demoBeamMembers 16).stemsUp = false := by
  decide

end ScoreFall
